import Mathlib

/-!
Shallow embedding of the SpO2-to-Viatom conversion core of
`convert_fitbit.py`: session segmentation and merging (`align_spo2_data`),
chunk generation (`divide_data_to_viatom_chunks`) and binary encoding
(`write_to_viatom_file`).  Timestamps are modelled as integer seconds;
physiological values as integers.  The merged table maps instants to an
optional SpO2 and an optional heart-rate value.  Python exceptions are
modelled with `Except` results, and the chunk generator's possible
UnboundLocalError (reading `spo2`/`bpm` before first assignment) is
modelled by an `Option`-valued result.
-/

/-- A synthesized record: (timestamp, SpO2, heart rate). -/
abbrev SRec := Int × Int × Int

/-- A merged-table row: (timestamp, optional SpO2, optional heart rate). -/
abbrev Entry := Int × Option Int × Option Int

/-- An ordered batch of synthesized records destined for one output file. -/
abbrev Chunk := List SRec

/-- Latest-value update of a running metric value: a present new value
replaces the running one, an absent value leaves it unchanged (the
`if values[k] is not None` statements at lines 170-173). -/
def updVal (w v : Option Int) : Option Int :=
  match w with
  | some x => some x
  | none => v

/-- Insert an entry into a list that is ascending on the timestamp key. -/
def insertByKey (e : Entry) : List Entry → List Entry
  | [] => [e]
  | f :: fs => if e.1 ≤ f.1 then e :: f :: fs else f :: insertByKey e fs

/-- Model of `sorted(data.items())` (line 158): sort the merged table by
its timestamp key.  Keys are unique in a Python dict, so no tie-breaking
on the values is ever exercised. -/
def sortByKey : List Entry → List Entry
  | [] => []
  | e :: es => insertByKey e (sortByKey es)

/-- Set the SpO2 slot of the merged-table row at instant `t`, creating the
row when absent, as `data[timestamp][0] = value` does on a `defaultdict`
(line 137). -/
def updSpo2 (tbl : List Entry) (t : Int) (v : Int) : List Entry :=
  if tbl.any (fun e => e.1 = t) then
    tbl.map (fun e => if e.1 = t then (e.1, some v, e.2.2) else e)
  else tbl ++ [(t, some v, none)]

/-- Set the heart-rate slot of the merged-table row at instant `t`
(line 146). -/
def updBpm (tbl : List Entry) (t : Int) (v : Int) : List Entry :=
  if tbl.any (fun e => e.1 = t) then
    tbl.map (fun e => if e.1 = t then (e.1, e.2.1, some v) else e)
  else tbl ++ [(t, none, some v)]

/-- State of the saturation loop of `align_spo2_data` (lines 127-138):
closed sessions so far, the start of the still-open session (the open
session always holds exactly one element in the Python list), the last
sample timestamp seen, and the merged table under construction. -/
structure SegSt where
  closed : List (Int × Int)
  cur : Option Int
  prevTs : Option Int
  tbl : List Entry

/-- One iteration of the saturation loop (lines 128-138).  Line 132
overwrites `prev_timestamp` with `sessions[-1][0]`, the START of the open
session, so the gap test compares the current timestamp with the session
start, and the session closed at a split gets that same start as its end. -/
def segStep (st : SegSt) (p : Int × Int) : SegSt :=
  match st.cur with
  | none =>
      { closed := st.closed, cur := some p.1, prevTs := some p.1,
        tbl := updSpo2 st.tbl p.1 p.2 }
  | some s =>
      if p.1 - s > 300 then
        { closed := st.closed ++ [(s, s)], cur := some p.1,
          prevTs := some p.1, tbl := updSpo2 st.tbl p.1 p.2 }
      else
        { closed := st.closed, cur := some s, prevTs := some p.1,
          tbl := updSpo2 st.tbl p.1 p.2 }

/-- The `align_spo2_data` function (lines 124-154) over the already-read
sample streams: segment the saturation samples into sessions, build the
merged table from both streams, error when either stream is empty, and
keep only the sessions whose end lies strictly before the last heart-rate
timestamp.  The final open session (always of length one) is closed with
the last saturation timestamp seen (lines 141-142); no error is raised
when the post-filter leaves no session. -/
def align_spo2_data (spo2 bpm : List (Int × Int)) :
    Except String (List (Int × Int) × List Entry) :=
  let st := spo2.foldl segStep ⟨[], none, none, []⟩
  match st.cur with
  | none => .error "No SPO2 night sessions detected!"
  | some s =>
    let sessions := st.closed ++ [(s, st.prevTs.getD s)]
    let st2 := bpm.foldl (fun (q : List Entry × Option Int) p =>
      (updBpm q.1 p.1 p.2, some p.1)) (st.tbl, none)
    match st2.2 with
    | none => .error "No heart rate data detected!"
    | some lastB => .ok (sessions.filter (fun sess => sess.2 < lastB), st2.1)

/-- Helper of the reference segmentation: `start` is the open session's
start, `prev` the previous saturation sample's timestamp. -/
def specSegGo (start prev : Int) : List Int → List (Int × Int)
  | [] => [(start, prev)]
  | t :: rest =>
      if t - prev > 300 then (start, prev) :: specSegGo t t rest
      else specSegGo start t rest

/-- Reference session segmentation following the spec's words: close the
current session when a sample's timestamp exceeds the PREVIOUS saturation
sample's timestamp by more than 5 minutes, with the previous sample as the
closed session's end; after the loop close the final session with the last
seen timestamp.  It is compared against the segmentation the code
performs. -/
def specSessionSegmentation : List Int → List (Int × Int)
  | [] => []
  | t :: rest => specSegGo t t rest

/-- Number of iterations performed by the 4-second while loop at lines
177-183 when it starts at `t` and runs until the next real timestamp
`endT` is reached: one iteration per started 4-second step of the
distance, none when `t` has already reached `endT`. -/
def iterCount (t endT : Int) : Nat := ((endT - t).toNat + 3) / 4

/-- The flat list of records synthesized by `n` iterations of the while
loop starting at `t` with running values `sv` and `bv`. -/
def recsFrom (sv bv : Int) : Int → Nat → List SRec
  | _, 0 => []
  | t, n + 1 => (t, sv, bv) :: recsFrom sv bv (t + 4) n

/-- Body of the while loop at lines 177-183: flush the active chunk when
it already holds 4095 records, then append the synthesized record and
advance by 4 seconds.  The running values cannot change inside the loop,
so they arrive here already unwrapped. -/
def emitGo (sv bv : Int) : Nat → Int → List Chunk → Chunk →
    List Chunk × Chunk × Int
  | 0, t, cs, c => (cs, c, t)
  | n + 1, t, cs, c =>
      if 4095 ≤ c.length then emitGo sv bv n (t + 4) (cs ++ [c]) [(t, sv, bv)]
      else emitGo sv bv n (t + 4) cs (c ++ [(t, sv, bv)])

/-- The while loop at lines 177-183.  Reading `spo2` or `bpm` before any
real sample has supplied a value is Python's UnboundLocalError, modelled
as `none`; the running values never change inside the loop, so the check
happens once when at least one iteration will run. -/
def emitLoop (t endT : Int) (s b : Option Int) (cs : List Chunk) (c : Chunk) :
    Option (List Chunk × Chunk × Int) :=
  if iterCount t endT = 0 then some (cs, c, t)
  else
    match s, b with
    | some sv, some bv => some (emitGo sv bv (iterCount t endT) t cs c)
    | _, _ => none

/-- The per-session interval walk of `divide_data_to_viatom_chunks`
(lines 162-184): for each consecutive pair of sorted-table entries, first
update the running values from the earlier entry, skip the interval when
the current position lies outside the session bounds, otherwise run the
4-second loop up to the later entry's timestamp and remember the final
position as `last_timestamp`. -/
def walkIntervals (sess : Int × Int) : List Entry → Option Int → Option Int →
    Option Int → List Chunk → Chunk →
    Option (List Chunk × Chunk × Option Int × Option Int)
  | e1 :: e2 :: rest, lastT, s, b, cs, c =>
    let t := lastT.getD e1.1
    let s2 := updVal e1.2.1 s
    let b2 := updVal e1.2.2 b
    if t < sess.1 ∨ sess.2 < t then
      walkIntervals sess (e2 :: rest) lastT s2 b2 cs c
    else
      match emitLoop t e2.1 s2 b2 cs c with
      | none => none
      | some (cs2, c2, t2) =>
          walkIntervals sess (e2 :: rest) (some t2) s2 b2 cs2 c2
  | _, _, s, b, cs, c => some (cs, c, s, b)

/-- The session loop of `divide_data_to_viatom_chunks` (lines 161-189):
walk each session over the sorted table (the running values persist from
one session to the next), flush the non-empty partial chunk at the end of
every session, and flush once more after the loop (dead in practice,
mirrored for fidelity). -/
def divideLoop (sd : List Entry) : List (Int × Int) → Option Int →
    Option Int → List Chunk → Chunk → Option (List Chunk)
  | [], _, _, cs, c => some (if c.isEmpty then cs else cs ++ [c])
  | sess :: rest, s, b, cs, c =>
    match walkIntervals sess sd none s b cs c with
    | none => none
    | some (cs2, c2, s2, b2) =>
        if c2.isEmpty then divideLoop sd rest s2 b2 cs2 c2
        else divideLoop sd rest s2 b2 (cs2 ++ [c2]) []

/-- The `divide_data_to_viatom_chunks` function (lines 157-190): sort the
merged table by timestamp and run the session loop with no running values
assigned yet; `none` is the UnboundLocalError outcome. -/
def divide_data_to_viatom_chunks (sessions : List (Int × Int))
    (data : List Entry) : Option (List Chunk) :=
  divideLoop (sortByKey data) sessions none none [] []

/-- Flat counterpart of `emitLoop`: the records the while loop appends and
the final position, without the chunk bookkeeping. -/
def emitRecs (t endT : Int) (s b : Option Int) : Option (List SRec × Int) :=
  if iterCount t endT = 0 then some ([], t)
  else
    match s, b with
    | some sv, some bv =>
        some (recsFrom sv bv t (iterCount t endT), t + 4 * iterCount t endT)
    | _, _ => none

/-- Flat counterpart of `walkIntervals`: the records one session's walk
synthesizes, in order, together with the final running values. -/
def walkRecs (sess : Int × Int) : List Entry → Option Int → Option Int →
    Option Int → Option (List SRec × Option Int × Option Int)
  | e1 :: e2 :: rest, lastT, s, b =>
    let t := lastT.getD e1.1
    let s2 := updVal e1.2.1 s
    let b2 := updVal e1.2.2 b
    if t < sess.1 ∨ sess.2 < t then
      walkRecs sess (e2 :: rest) lastT s2 b2
    else
      match emitRecs t e2.1 s2 b2 with
      | none => none
      | some (rs, t2) =>
          match walkRecs sess (e2 :: rest) (some t2) s2 b2 with
          | none => none
          | some (rs2, sf, bf) => some (rs ++ rs2, sf, bf)
  | _, _, s, b => some ([], s, b)

/-- Flat counterpart of `divideLoop`: one flat record list per session, in
session order. -/
def divideRecs (sd : List Entry) : List (Int × Int) → Option Int →
    Option Int → Option (List (List SRec))
  | [], _, _ => some []
  | sess :: rest, s, b =>
    match walkRecs sess sd none s b with
    | none => none
    | some (rs, s2, b2) =>
        match divideRecs sd rest s2 b2 with
        | none => none
        | some ls => some (rs :: ls)

/-- One record appended to the chunk state: flush the active chunk first
when it already holds 4095 records (lines 178-181). -/
def chunkPush (st : List Chunk × Chunk) (r : SRec) : List Chunk × Chunk :=
  if 4095 ≤ st.2.length then (st.1 ++ [st.2], [r]) else (st.1, st.2 ++ [r])

/-- End-of-session flush (lines 185-187). -/
def flushEnd (st : List Chunk × Chunk) : List Chunk :=
  if st.2.isEmpty then st.1 else st.1 ++ [st.2]

/-- Greedy partition of a record list into chunks of 4095, the last chunk
possibly shorter; this is what the flush policy produces for the records
of a single session. -/
def chunksOf (l : List SRec) : List Chunk :=
  if h : l = [] then [] else l.take 4095 :: chunksOf (l.drop 4095)
termination_by l.length
decreasing_by
  simp only [List.length_drop]
  have hp : 0 < l.length := List.length_pos.mpr h
  omega

/-- SpO2 slot of a merged-table row. -/
def entrySpo2 (e : Entry) : Option Int := e.2.1

/-- Heart-rate slot of a merged-table row. -/
def entryBpm (e : Entry) : Option Int := e.2.2

/-- Running forward-fill value after consuming the rows `es` in order,
starting from `v`. -/
def foldOr (sel : Entry → Option Int) (es : List Entry) (v : Option Int) :
    Option Int :=
  es.foldl (fun a e => updVal (sel e) a) v

/-- Last value of the selected metric observed strictly before instant
`tau` in the table. -/
def lastValBefore (sel : Entry → Option Int) (es : List Entry) (tau : Int) :
    Option Int :=
  foldOr sel (es.filter (fun e => e.1 < tau)) none

/-- Failure modes of `write_to_viatom_file`: the explicit RuntimeError for
an over-long chunk (lines 194-197), the IndexError `data[0]` would raise
on an empty chunk (line 198), and the struct.error a `struct.pack` call
raises on an out-of-range field. -/
inductive EncErr where
  | tooLong
  | noData
  | packError
deriving DecidableEq

/-- Little-endian bytes of a 16-bit value. -/
def u16le (n : Nat) : List Nat := [n % 256, n / 256 % 256]

/-- Little-endian bytes of a 32-bit value. -/
def u32le (n : Nat) : List Nat :=
  [n % 256, n / 256 % 256, n / 65536 % 256, n / 16777216 % 256]

/-- Model of `struct.pack("<B", v)` on a Python int: struct.error outside
0..255. -/
def packU8I (v : Int) : Except EncErr (List Nat) :=
  if 0 ≤ v ∧ v ≤ 255 then .ok [v.toNat] else .error .packError

/-- Model of `struct.pack("<B", n)` on a known-nonnegative field. -/
def packU8N (n : Nat) : Except EncErr (List Nat) :=
  if n ≤ 255 then .ok [n] else .error .packError

/-- Model of `struct.pack("<H", v)` on a Python int. -/
def packU16I (v : Int) : Except EncErr (List Nat) :=
  if 0 ≤ v ∧ v < 65536 then .ok (u16le v.toNat) else .error .packError

/-- Model of `struct.pack("<H", n)` on a known-nonnegative field. -/
def packU16N (n : Nat) : Except EncErr (List Nat) :=
  if n < 65536 then .ok (u16le n) else .error .packError

/-- Model of `struct.pack("<I", n)` on a known-nonnegative field. -/
def packU32N (n : Nat) : Except EncErr (List Nat) :=
  if n < 4294967296 then .ok (u32le n) else .error .packError

/-- Gregorian calendar fields (year, month, day) of a day count relative
to 1970-01-01, the standard civil-from-days computation; it stands in for
the datetime component accessors the header packing uses. -/
def civilFromDays (days : Int) : Int × Nat × Nat :=
  let z := days + 719468
  let era := z.ediv 146097
  let doe := (z.emod 146097).toNat
  let yoe := (doe - doe / 1460 + doe / 36524 - doe / 146096) / 365
  let doy := doe - (365 * yoe + yoe / 4 - yoe / 100)
  let mp := (5 * doy + 2) / 153
  let d := doy - (153 * mp + 2) / 5 + 1
  let m := if mp < 10 then mp + 3 else mp - 9
  ((yoe : Int) + era * 400 + (if m ≤ 2 then 1 else 0), m, d)

/-- The 40-byte header written at lines 200-217 for a chunk of `n` records
whose first record carries timestamp `t`: magic 0x05 0x00, the first
record's year, month, day, hour, minute and second, the file size field
`n*5+40`, the duration field `n*4`, then 25 zero padding bytes. -/
def packHeader (t : Int) (n : Nat) : Except EncErr (List Nat) :=
  let c := civilFromDays (t.ediv 86400)
  let sod := (t.emod 86400).toNat
  match packU16I c.1, packU8N c.2.1, packU8N c.2.2, packU8N (sod / 3600),
      packU8N (sod % 3600 / 60), packU8N (sod % 60),
      packU32N (n * 5 + 40), packU16N (n * 4) with
  | .ok yb, .ok mb, .ok db, .ok hb, .ok mib, .ok sb, .ok zb, .ok ub =>
      .ok ([5, 0] ++ yb ++ mb ++ db ++ hb ++ mib ++ sb ++ zb ++ ub ++
        List.replicate 25 0)
  | .error e, _, _, _, _, _, _, _ => .error e
  | _, .error e, _, _, _, _, _, _ => .error e
  | _, _, .error e, _, _, _, _, _ => .error e
  | _, _, _, .error e, _, _, _, _ => .error e
  | _, _, _, _, .error e, _, _, _ => .error e
  | _, _, _, _, _, .error e, _, _ => .error e
  | _, _, _, _, _, _, .error e, _ => .error e
  | _, _, _, _, _, _, _, .error e => .error e

/-- The five record bytes written at lines 220-233: an SpO2 value of at
most 61 is written as the invalid marker 0xFF with trailing 0xFF 0x00
0x00, a value above 99 is clamped to 99, otherwise the raw SpO2 byte is
written; the heart-rate byte is packed raw in every branch, followed by
the trailing bytes. -/
def encodeRecord (r : SRec) : Except EncErr (List Nat) :=
  if r.2.1 ≤ 61 then
    match packU8I r.2.2 with
    | .ok hb => .ok ([255] ++ hb ++ [255, 0, 0])
    | .error e => .error e
  else if 99 < r.2.1 then
    match packU8I r.2.2 with
    | .ok hb => .ok ([99] ++ hb ++ [0, 0, 0])
    | .error e => .error e
  else
    match packU8I r.2.1, packU8I r.2.2 with
    | .ok sb, .ok hb => .ok (sb ++ hb ++ [0, 0, 0])
    | .error e, _ => .error e
    | _, .error e => .error e

/-- All record bodies of a chunk, in order (the loop at lines 220-233). -/
def encodeAll : List SRec → Except EncErr (List Nat)
  | [] => .ok []
  | r :: rs =>
    match encodeRecord r, encodeAll rs with
    | .ok b, .ok bs => .ok (b ++ bs)
    | .error e, _ => .error e
    | _, .error e => .error e

/-- The `write_to_viatom_file` function (lines 193-233) as the byte string
it writes: the RuntimeError for a chunk longer than 4095 records is
checked first, then the header and the record bodies are produced. -/
def write_to_viatom_file (data : List SRec) : Except EncErr (List Nat) :=
  if 4095 < data.length then .error .tooLong
  else
    match data with
    | [] => .error .noData
    | r0 :: _ =>
      match packHeader r0.1 data.length, encodeAll data with
      | .ok hd, .ok body => .ok (hd ++ body)
      | .error e, _ => .error e
      | _, .error e => .error e

/-- Little-endian decoding of two bytes. -/
def decodeU16le (l : List Nat) : Nat := l.getD 0 0 + 256 * l.getD 1 0

/-- Little-endian decoding of four bytes. -/
def decodeU32le (l : List Nat) : Nat :=
  l.getD 0 0 + 256 * l.getD 1 0 + 65536 * l.getD 2 0 + 16777216 * l.getD 3 0

/-! ### Basic lemmas about sorting and the segmentation fold -/

theorem insertByKey_of_le (e f : Entry) (fs : List Entry) (h : e.1 ≤ f.1) :
    insertByKey e (f :: fs) = e :: f :: fs := by
  simp [insertByKey, h]

theorem sortByKey_eq_self :
    ∀ l : List Entry, List.Chain' (fun a b : Entry => a.1 ≤ b.1) l →
      sortByKey l = l
  | [], _ => rfl
  | e :: es, h => by
    rw [List.chain'_cons'] at h
    rw [sortByKey, sortByKey_eq_self es h.2]
    cases es with
    | nil => rfl
    | cons f fs => exact insertByKey_of_le e f fs (h.1 f rfl)

theorem sortByKey_eq_self_of_lt (l : List Entry)
    (h : List.Chain' (fun a b : Entry => a.1 < b.1) l) : sortByKey l = l :=
  sortByKey_eq_self l (h.imp (fun _ _ hab => le_of_lt hab))

theorem segStep_cur_isSome (st : SegSt) (p : Int × Int) :
    (segStep st p).cur.isSome = true := by
  unfold segStep
  cases st.cur with
  | none => rfl
  | some s =>
    by_cases h : p.1 - s > 300 <;> simp [h]

theorem segFold_cur_isSome :
    ∀ (l : List (Int × Int)) (st : SegSt), st.cur.isSome = true →
      (l.foldl segStep st).cur.isSome = true
  | [], _, h => h
  | p :: ps, st, _ =>
    segFold_cur_isSome ps (segStep st p) (segStep_cur_isSome st p)

theorem segFold_cur_isSome_of_cons (p : Int × Int) (ps : List (Int × Int))
    (st : SegSt) : ((p :: ps).foldl segStep st).cur.isSome = true := by
  rw [List.foldl_cons]
  exact segFold_cur_isSome ps (segStep st p) (segStep_cur_isSome st p)

theorem bpmStep_isSome (l : List (Int × Int)) (q : List Entry × Option Int)
    (h : q.2.isSome = true) :
    (l.foldl (fun (q : List Entry × Option Int) p =>
      (updBpm q.1 p.1 p.2, some p.1)) q).2.isSome = true := by
  induction l generalizing q with
  | nil => exact h
  | cons p ps ih => exact ih (updBpm q.1 p.1 p.2, some p.1) rfl

theorem bpmStep_isSome_of_cons (p : Int × Int) (ps : List (Int × Int))
    (q : List Entry × Option Int) :
    ((p :: ps).foldl (fun (q : List Entry × Option Int) p =>
      (updBpm q.1 p.1 p.2, some p.1)) q).2.isSome = true := by
  rw [List.foldl_cons]
  exact bpmStep_isSome ps _ rfl

/-! ### Claim C1 -/

/-- C1: the claim states that segmentation follows the reference
algorithm, splitting when a sample exceeds the PREVIOUS sample by more
than 5 minutes and ending every closed session at its last contained
sample, so that saturation samples at 00:00, 00:01, 00:10 yield the
sessions [00:00, 00:01] and [00:10, 00:10].  The code instead compares the
current sample with the open session's START (line 132 overwrites the
loop-carried `prev_timestamp`) and closes the split-off session with that
same start: on samples at 0 s, 60 s, 600 s it produces the sessions
[(0, 0), (600, 600)] while the reference algorithm of the spec produces
[(0, 60), (600, 600)]. -/
theorem c1_segmentation_code_vs_spec :
    align_spo2_data [(0, 62), (60, 62), (600, 62)] [(660, 70), (900, 70)] =
      .ok ([(0, 0), (600, 600)],
        [(0, some 62, none), (60, some 62, none), (600, some 62, none),
         (660, none, some 70), (900, none, some 70)]) ∧
    specSessionSegmentation [0, 60, 600] = [(0, 60), (600, 600)] ∧
    ([(0, 0), (600, 600)] : List (Int × Int)) ≠ [(0, 60), (600, 600)] :=
  ⟨rfl, rfl, by decide⟩

/-! ### Claim C5 -/

/-- C5 counterexample: a saturation stream with one sample at 0 and a
heart-rate stream whose last timestamp is also 0 leaves no session after
the coverage post-filter, yet `align_spo2_data` returns successfully with
an empty session list instead of raising a "missing data" error, and the
chunk generator then produces no chunks, so the run silently writes
nothing. -/
theorem c5_postfilter_no_error_cex :
    align_spo2_data [(0, 62)] [(0, 70)] =
      .ok ([], [(0, some 62, some 70)]) ∧
    divide_data_to_viatom_chunks [] [(0, some 62, some 70)] = some [] :=
  ⟨rfl, rfl⟩

/-- C5 amended: the alignment step raises its distinguishable "missing
data" error exactly in TWO of the three claimed cases — when the
saturation stream is empty and when the heart-rate stream is empty; a run
in which no session survives the heart-rate-coverage post-filter returns
an empty session list without error. -/
theorem c5_missing_data_amended (spo2 bpm : List (Int × Int)) (e : String) :
    align_spo2_data spo2 bpm = .error e ↔
      (spo2 = [] ∧ e = "No SPO2 night sessions detected!") ∨
      (spo2 ≠ [] ∧ bpm = [] ∧ e = "No heart rate data detected!") := by
  cases spo2 with
  | nil =>
    constructor
    · intro h
      have he : e = "No SPO2 night sessions detected!" :=
        ((Except.error.injEq _ _).mp h).symm
      exact Or.inl ⟨rfl, he⟩
    · rintro (⟨-, rfl⟩ | ⟨hne, -, -⟩)
      · rfl
      · exact absurd rfl hne
  | cons p ps =>
    have hcur := segFold_cur_isSome_of_cons p ps ⟨[], none, none, []⟩
    simp only [align_spo2_data]
    cases hc : ((p :: ps).foldl segStep ⟨[], none, none, []⟩).cur with
    | none => rw [hc] at hcur; cases hcur
    | some s =>
      cases bpm with
      | nil =>
        simp only [List.foldl_nil]
        constructor
        · intro h
          have he : e = "No heart rate data detected!" :=
            ((Except.error.injEq _ _).mp h).symm
          exact Or.inr ⟨List.cons_ne_nil p ps, by trivial, he⟩
        · rintro (⟨h, -⟩ | ⟨-, -, rfl⟩)
          · cases h
          · rfl
      | cons q qs =>
        have hb := bpmStep_isSome_of_cons q qs
          (((p :: ps).foldl segStep ⟨[], none, none, []⟩).tbl, none)
        cases hb2 : ((q :: qs).foldl (fun (q : List Entry × Option Int) p =>
            (updBpm q.1 p.1 p.2, some p.1))
            (((p :: ps).foldl segStep ⟨[], none, none, []⟩).tbl, none)).2 with
        | none =>
          rw [hb2] at hb
          cases hb
        | some lastB =>
          simp

/-! ### Claim C10 -/

/-- C10: the chunk generator is partial at its interface.  On the valid
input whose saturation samples lie at 0 s and 60 s and whose only
heart-rate sample lies at 120 s, alignment succeeds with the retained
session (0, 60), but the first synthesized record of that session is built
before any heart-rate sample has supplied the running `bpm` value, which
is Python's UnboundLocalError; in the embedding the record construction is
`Option`-valued and the generator returns `none` instead of chunks. -/
theorem c10_unbound_bpm_reachable :
    align_spo2_data [(0, 62), (60, 63)] [(120, 70)] =
      .ok ([(0, 60)],
        [(0, some 62, none), (60, some 63, none), (120, none, some 70)]) ∧
    divide_data_to_viatom_chunks [(0, 60)]
      [(0, some 62, none), (60, some 63, none), (120, none, some 70)] =
      none :=
  ⟨rfl, rfl⟩

/-! ### Claim C9 counterexample and Claim C6 counterexample -/

/-- C9 counterexample: for the session (0, 0) over a table with entries at
0 and 8, the generated chunk contains a record at instant 4, strictly
beyond the session's end 0 — the session's chunks do not cover exactly the
session's time range; synthesis only stops when the NEXT real table
timestamp is reached. -/
theorem c9_session_cover_cex :
    divide_data_to_viatom_chunks [(0, 0)]
      [(0, some 62, some 70), (8, none, some 71)] =
      some [[(0, 62, 70), (4, 62, 70)]] ∧ (0 : Int) < 4 :=
  ⟨rfl, by decide⟩

/-- C6 counterexample: a record with heart rate 300 makes the binary
encoder FAIL with a struct packing error — `struct.pack("<B", 300)` raises
struct.error — instead of silently truncating the value to one byte as the
claim states. -/
theorem c6_hr_out_of_range_cex :
    write_to_viatom_file [(0, 62, 300)] = .error .packError :=
  rfl

/-! ### Encoder lemmas -/

/-- The five body bytes of one record, as the claim describes them. -/
def recBytes (r : SRec) : List Nat :=
  if r.2.1 ≤ 61 then [255, r.2.2.toNat, 255, 0, 0]
  else [(min r.2.1 99).toNat, r.2.2.toNat, 0, 0, 0]

theorem recBytes_length (r : SRec) : (recBytes r).length = 5 := by
  unfold recBytes
  split <;> rfl

theorem packU8I_ok (v : Int) (l : List Nat) (h : packU8I v = .ok l) :
    0 ≤ v ∧ v ≤ 255 ∧ l = [v.toNat] := by
  unfold packU8I at h
  split at h
  · cases h
    exact ⟨by omega, by omega, rfl⟩
  · cases h

theorem packU8I_error (v : Int) (e : EncErr) (h : packU8I v = .error e) :
    e = .packError := by
  unfold packU8I at h
  split at h
  · cases h
  · cases h; rfl

theorem packU8N_ok (n : Nat) (l : List Nat) (h : packU8N n = .ok l) :
    l = [n] := by
  unfold packU8N at h
  split at h
  · cases h; rfl
  · cases h

theorem packU8N_error (n : Nat) (e : EncErr) (h : packU8N n = .error e) :
    e = .packError := by
  unfold packU8N at h
  split at h
  · cases h
  · cases h; rfl

theorem packU16I_ok (v : Int) (l : List Nat) (h : packU16I v = .ok l) :
    l = u16le v.toNat := by
  unfold packU16I at h
  split at h
  · cases h; rfl
  · cases h

theorem packU16I_error (v : Int) (e : EncErr) (h : packU16I v = .error e) :
    e = .packError := by
  unfold packU16I at h
  split at h
  · cases h
  · cases h; rfl

theorem packU16N_ok (n : Nat) (l : List Nat) (h : packU16N n = .ok l) :
    n < 65536 ∧ l = u16le n := by
  unfold packU16N at h
  split at h
  · cases h; exact ⟨by omega, rfl⟩
  · cases h

theorem packU16N_error (n : Nat) (e : EncErr) (h : packU16N n = .error e) :
    e = .packError := by
  unfold packU16N at h
  split at h
  · cases h
  · cases h; rfl

theorem packU32N_ok (n : Nat) (l : List Nat) (h : packU32N n = .ok l) :
    n < 4294967296 ∧ l = u32le n := by
  unfold packU32N at h
  split at h
  · cases h; exact ⟨by omega, rfl⟩
  · cases h

theorem packU32N_error (n : Nat) (e : EncErr) (h : packU32N n = .error e) :
    e = .packError := by
  unfold packU32N at h
  split at h
  · cases h
  · cases h; rfl

theorem encodeRecord_ok (r : SRec) (l : List Nat)
    (h : encodeRecord r = .ok l) :
    0 ≤ r.2.2 ∧ r.2.2 ≤ 255 ∧ l = recBytes r := by
  unfold encodeRecord at h
  by_cases h61 : r.2.1 ≤ 61
  · rw [if_pos h61] at h
    cases hp : packU8I r.2.2 with
    | ok hb =>
      rw [hp] at h
      cases h
      obtain ⟨h0, h1, h2⟩ := packU8I_ok _ _ hp
      exact ⟨h0, h1, by rw [h2, recBytes, if_pos h61]; rfl⟩
    | error e => rw [hp] at h; cases h
  · rw [if_neg h61] at h
    by_cases h99 : 99 < r.2.1
    · rw [if_pos h99] at h
      cases hp : packU8I r.2.2 with
      | ok hb =>
        rw [hp] at h
        cases h
        obtain ⟨h0, h1, h2⟩ := packU8I_ok _ _ hp
        refine ⟨h0, h1, ?_⟩
        rw [h2, recBytes, if_neg h61]
        have : min r.2.1 99 = 99 := by omega
        rw [this]
        rfl
      | error e => rw [hp] at h; cases h
    · rw [if_neg h99] at h
      cases hs : packU8I r.2.1 with
      | ok sb =>
        cases hp : packU8I r.2.2 with
        | ok hb =>
          rw [hs, hp] at h
          cases h
          obtain ⟨h0, h1, h2⟩ := packU8I_ok _ _ hp
          obtain ⟨-, -, h5⟩ := packU8I_ok _ _ hs
          refine ⟨h0, h1, ?_⟩
          rw [h2, h5, recBytes, if_neg h61]
          have : min r.2.1 99 = r.2.1 := by omega
          rw [this]
          rfl
        | error e => rw [hs, hp] at h; cases h
      | error e =>
        cases hp : packU8I r.2.2 with
        | ok hb => rw [hs, hp] at h; cases h
        | error e2 => rw [hs, hp] at h; cases h

theorem encodeRecord_error (r : SRec) (e : EncErr)
    (h : encodeRecord r = .error e) : e = .packError := by
  unfold encodeRecord at h
  split at h
  · cases hp : packU8I r.2.2 with
    | ok hb => rw [hp] at h; cases h
    | error e2 => rw [hp] at h; cases h; exact packU8I_error _ _ hp
  · split at h
    · cases hp : packU8I r.2.2 with
      | ok hb => rw [hp] at h; cases h
      | error e2 => rw [hp] at h; cases h; exact packU8I_error _ _ hp
    · cases hs : packU8I r.2.1 with
      | ok sb =>
        cases hp : packU8I r.2.2 with
        | ok hb => rw [hs, hp] at h; cases h
        | error e2 => rw [hs, hp] at h; cases h; exact packU8I_error _ _ hp
      | error e2 =>
        cases hp : packU8I r.2.2 with
        | ok hb => rw [hs, hp] at h; cases h; exact packU8I_error _ _ hs
        | error e3 => rw [hs, hp] at h; cases h; exact packU8I_error _ _ hs

theorem encodeAll_ok (rs : List SRec) (body : List Nat)
    (h : encodeAll rs = .ok body) :
    body.length = 5 * rs.length ∧
    ∀ i (hi : i < rs.length),
      0 ≤ (rs.get ⟨i, hi⟩).2.2 ∧ (rs.get ⟨i, hi⟩).2.2 ≤ 255 ∧
      (body.drop (5 * i)).take 5 = recBytes (rs.get ⟨i, hi⟩) := by
  induction rs generalizing body with
  | nil =>
    cases h
    exact ⟨rfl, fun i hi => absurd hi (by simp)⟩
  | cons r rest ih =>
    unfold encodeAll at h
    cases hr : encodeRecord r with
    | error e =>
      cases hrest : encodeAll rest with
      | error e2 => rw [hr, hrest] at h; cases h
      | ok bs => rw [hr, hrest] at h; cases h
    | ok b =>
      cases hrest : encodeAll rest with
      | error e => rw [hr, hrest] at h; cases h
      | ok bs =>
        rw [hr, hrest] at h
        cases h
        obtain ⟨hlen, hidx⟩ := ih bs hrest
        obtain ⟨hb0, hb1, hb2⟩ := encodeRecord_ok r b hr
        have hblen : b.length = 5 := by rw [hb2]; exact recBytes_length r
        constructor
        · simp [List.length_append, hblen, hlen]
          omega
        · intro i hi
          cases i with
          | zero =>
            refine ⟨hb0, hb1, ?_⟩
            simp only [Nat.mul_zero, List.drop_zero]
            rw [List.take_append_of_le_length (by omega),
              List.take_of_length_le (by omega), hb2]
            rfl
          | succ j =>
            have hj : j < rest.length := by
              simp at hi
              omega
            obtain ⟨q0, q1, q2⟩ := hidx j hj
            have harith : 5 * (j + 1) = b.length + 5 * j := by omega
            refine ⟨q0, q1, ?_⟩
            rw [harith, List.drop_append, q2]
            rfl

theorem encodeAll_error (rs : List SRec) (e : EncErr)
    (h : encodeAll rs = .error e) : e = .packError := by
  induction rs with
  | nil => cases h
  | cons r rest ih =>
    unfold encodeAll at h
    cases hr : encodeRecord r with
    | error e2 =>
      cases hrest : encodeAll rest with
      | error e3 =>
        rw [hr, hrest] at h
        cases h
        exact encodeRecord_error r _ hr
      | ok bs =>
        rw [hr, hrest] at h
        cases h
        exact encodeRecord_error r _ hr
    | ok b =>
      cases hrest : encodeAll rest with
      | error e2 =>
        rw [hr, hrest] at h
        cases h
        exact ih hrest
      | ok bs => rw [hr, hrest] at h; cases h

theorem packHeader_ok (t : Int) (n : Nat) (hd : List Nat)
    (h : packHeader t n = .ok hd) :
    hd.length = 40 ∧
    (hd.drop 9).take 4 = u32le (n * 5 + 40) ∧
    (hd.drop 13).take 2 = u16le (n * 4) := by
  simp only [packHeader] at h
  split at h
  case _ yb mb db hb mib sb zb ub hy hm hdb hh hmi hs hz hu =>
    cases h
    obtain hyb := packU16I_ok _ _ hy
    obtain hmb := packU8N_ok _ _ hm
    obtain hdbv := packU8N_ok _ _ hdb
    obtain hhb := packU8N_ok _ _ hh
    obtain hmib := packU8N_ok _ _ hmi
    obtain hsb := packU8N_ok _ _ hs
    obtain ⟨-, hzb⟩ := packU32N_ok _ _ hz
    obtain ⟨-, hub⟩ := packU16N_ok _ _ hu
    subst hyb hmb hdbv hhb hmib hsb hzb hub
    refine ⟨?_, ?_, ?_⟩ <;> simp [u16le, u32le, List.length_append]
  all_goals cases h

theorem packHeader_error (t : Int) (n : Nat) (e : EncErr)
    (h : packHeader t n = .error e) : e = .packError := by
  simp only [packHeader] at h
  split at h
  · cases h
  all_goals
    cases h
    first
    | exact packU16I_error _ _ (by assumption)
    | exact packU8N_error _ _ (by assumption)
    | exact packU32N_error _ _ (by assumption)
    | exact packU16N_error _ _ (by assumption)

theorem write_ok_structure (data : List SRec) (bs : List Nat)
    (h : write_to_viatom_file data = .ok bs) :
    data.length ≤ 4095 ∧ data ≠ [] ∧
    ∃ hd body, packHeader (data.headI.1) data.length = .ok hd ∧
      encodeAll data = .ok body ∧ bs = hd ++ body := by
  unfold write_to_viatom_file at h
  split at h
  · cases h
  next hlen =>
    split at h
    · cases h
    next r0 tail =>
      split at h
      next hd body hh hb =>
        cases h
        refine ⟨by omega, by simp, hd, body, ?_, hb, rfl⟩
        simpa [List.headI] using hh
      · cases h
      · cases h

theorem write_tooLong_iff (data : List SRec) :
    write_to_viatom_file data = .error .tooLong ↔ 4095 < data.length := by
  constructor
  · intro h
    unfold write_to_viatom_file at h
    split at h
    · assumption
    next hlen =>
      exfalso
      split at h
      · simp at h
      next r0 tail =>
        split at h
        · simp at h
        all_goals
          injection h with h2
          subst h2
          first
            | exact absurd (packHeader_error _ _ _ (by assumption)) (by decide)
            | exact absurd (encodeAll_error _ _ (by assumption)) (by decide)
  · intro h
    unfold write_to_viatom_file
    rw [if_pos h]

theorem decode_u16le (v : Nat) (h : v < 65536) : decodeU16le (u16le v) = v := by
  simp only [decodeU16le, u16le, List.getD_cons_zero, List.getD_cons_succ]
  omega

theorem decode_u32le (v : Nat) (h : v < 4294967296) :
    decodeU32le (u32le v) = v := by
  simp only [decodeU32le, u32le, List.getD_cons_zero, List.getD_cons_succ]
  omega

/-! ### Claims C3, C6, C7 -/

/-- C3: every record written by the binary encoder follows the
clamp/sentinel layout: an SpO2 value of at most 61 produces the body
0xFF, the heart-rate byte, then 0xFF 0x00 0x00; any other value produces
min(SpO2, 99), the heart-rate byte, then three zero bytes — so SpO2 61
encodes as the 0xFF marker, 62 as raw 62, and 150 as 99. -/
theorem c3_record_byte_layout (data : List SRec) (bs : List Nat) (i : Nat)
    (hi : i < data.length) (h : write_to_viatom_file data = .ok bs) :
    (bs.drop (40 + 5 * i)).take 5 =
      if (data.get ⟨i, hi⟩).2.1 ≤ 61 then
        [255, (data.get ⟨i, hi⟩).2.2.toNat, 255, 0, 0]
      else
        [(min (data.get ⟨i, hi⟩).2.1 99).toNat,
          (data.get ⟨i, hi⟩).2.2.toNat, 0, 0, 0] := by
  obtain ⟨hle, hne, hd, body, hh, hb, rfl⟩ := write_ok_structure data bs h
  obtain ⟨hl40, -, -⟩ := packHeader_ok _ _ _ hh
  obtain ⟨-, hidx⟩ := encodeAll_ok _ _ hb
  have harith : 40 + 5 * i = hd.length + 5 * i := by omega
  rw [harith, List.drop_append, (hidx i hi).2.2]
  rfl

/-- C3 witness: the encoder output for the single record (0, 62, 70)
carries the body bytes 62, 70, 0, 0, 0 at offset 40. -/
theorem c3_record_byte_layout_witness :
    (((write_to_viatom_file [(0, 62, 70)]).toOption.getD []).drop 40).take 5 =
      [62, 70, 0, 0, 0] := by
  have h := c3_record_byte_layout [(0, 62, 70)]
    ((write_to_viatom_file [(0, 62, 70)]).toOption.getD []) 0 (by decide) rfl
  simpa using h

/-- C6 amended: the heart-rate byte of every successfully written record
is the record's raw integer value, which therefore must lie in 0..255; an
out-of-range heart-rate value is NOT truncated silently — it makes the
encoder fail with a packing error, so no file contents are produced (the
counterexample theorem shows the failure at heart rate 300). -/
theorem c6_hr_byte_amended (data : List SRec) (bs : List Nat)
    (h : write_to_viatom_file data = .ok bs) (i : Nat)
    (hi : i < data.length) :
    0 ≤ (data.get ⟨i, hi⟩).2.2 ∧ (data.get ⟨i, hi⟩).2.2 ≤ 255 ∧
    bs.getD (40 + 5 * i + 1) 0 = (data.get ⟨i, hi⟩).2.2.toNat := by
  obtain ⟨hle, hne, hd, body, hh, hb, rfl⟩ := write_ok_structure data bs h
  obtain ⟨hl40, -, -⟩ := packHeader_ok _ _ _ hh
  obtain ⟨-, hidx⟩ := encodeAll_ok _ _ hb
  obtain ⟨q0, q1, q2⟩ := hidx i hi
  refine ⟨q0, q1, ?_⟩
  have harith : 40 + 5 * i + 1 = hd.length + (5 * i + 1) := by omega
  rw [List.getD_eq_getElem?_getD, harith, List.getElem?_append_right (by omega)]
  have hx : hd.length + (5 * i + 1) - hd.length = 5 * i + 1 := by omega
  rw [hx]
  have hslice : ((body.drop (5 * i)).take 5).getD 1 0 =
      (recBytes (data.get ⟨i, hi⟩)).getD 1 0 := by rw [q2]
  rw [List.getD_eq_getElem?_getD, List.getElem?_take, if_pos (by omega),
    List.getElem?_drop] at hslice
  rw [hslice]
  unfold recBytes
  split <;> rfl

/-- C6 witness: the record (0, 62, 70) has its in-range heart rate 70
written raw as the byte at offset 41. -/
theorem c6_hr_byte_amended_witness :
    ((write_to_viatom_file [(0, 62, 70)]).toOption.getD []).getD 41 0 = 70 := by
  have h := c6_hr_byte_amended [(0, 62, 70)]
    ((write_to_viatom_file [(0, 62, 70)]).toOption.getD []) rfl 0 (by decide)
  simpa using h.2.2

/-- C7: header round-trip.  For every chunk the encoder accepts, decoding
bytes 9..12 of the written file as a little-endian 32-bit integer yields
5*records+40, decoding bytes 13..14 as a little-endian 16-bit integer
yields 4*records, and the file is exactly 5*records+40 bytes long. -/
theorem c7_header_round_trip (data : List SRec) (bs : List Nat)
    (h : write_to_viatom_file data = .ok bs) :
    decodeU32le ((bs.drop 9).take 4) = 5 * data.length + 40 ∧
    decodeU16le ((bs.drop 13).take 2) = 4 * data.length ∧
    bs.length = 5 * data.length + 40 := by
  obtain ⟨hle, hne, hd, body, hh, hb, rfl⟩ := write_ok_structure data bs h
  obtain ⟨hl40, hsz, hdur⟩ := packHeader_ok _ _ _ hh
  obtain ⟨hblen, -⟩ := encodeAll_ok _ _ hb
  refine ⟨?_, ?_, ?_⟩
  · rw [List.drop_append_of_le_length (by omega),
      List.take_append_of_le_length (by simp [List.length_drop]; omega), hsz,
      decode_u32le _ (by omega)]
    omega
  · rw [List.drop_append_of_le_length (by omega),
      List.take_append_of_le_length (by simp [List.length_drop]; omega), hdur,
      decode_u16le _ (by omega)]
    omega
  · rw [List.length_append, hl40, hblen]
    omega

/-- C7 witness: the file for the single record (0, 62, 70) is 45 bytes
long and its size and duration fields decode to 45 and 4. -/
theorem c7_header_round_trip_witness :
    decodeU32le ((((write_to_viatom_file [(0, 62, 70)]).toOption.getD
      []).drop 9).take 4) = 45 ∧
    ((write_to_viatom_file [(0, 62, 70)]).toOption.getD []).length = 45 := by
  have h := c7_header_round_trip [(0, 62, 70)]
    ((write_to_viatom_file [(0, 62, 70)]).toOption.getD []) rfl
  exact ⟨by simpa using h.1, by simpa using h.2.2⟩

/-! ### Chunk-generator lemmas: the while loop and its flat form -/

theorem recsFrom_length (sv bv : Int) :
    ∀ (t : Int) (n : Nat), (recsFrom sv bv t n).length = n
  | _, 0 => rfl
  | t, n + 1 => by
    simp only [recsFrom, List.length_cons, recsFrom_length sv bv (t + 4) n]

theorem recsFrom_mem (sv bv : Int) :
    ∀ (t : Int) (n : Nat), ∀ r ∈ recsFrom sv bv t n,
      r.2.1 = sv ∧ r.2.2 = bv ∧ t ≤ r.1 ∧ r.1 < t + 4 * (n : Int)
  | t, n + 1, r, hr => by
    rw [recsFrom] at hr
    rcases List.mem_cons.mp hr with h | h
    · subst h
      refine ⟨rfl, rfl, le_refl t, by push_cast; omega⟩
    · obtain ⟨h1, h2, h3, h4⟩ := recsFrom_mem sv bv (t + 4) n r h
      refine ⟨h1, h2, by omega, by push_cast at h4 ⊢; omega⟩

theorem recsFrom_head (sv bv : Int) (t : Int) (n : Nat) (hn : n ≠ 0) :
    (recsFrom sv bv t n).head? = some (t, sv, bv) := by
  cases n with
  | zero => exact absurd rfl hn
  | succ m => rfl

theorem recsFrom_chain (sv bv : Int) :
    ∀ (t : Int) (n : Nat),
      List.Chain' (fun a b : SRec => b.1 = a.1 + 4) (recsFrom sv bv t n)
  | _, 0 => List.chain'_nil
  | t, n + 1 => by
    rw [recsFrom, List.chain'_cons']
    refine ⟨?_, recsFrom_chain sv bv (t + 4) n⟩
    intro y hy
    cases n with
    | zero => cases hy
    | succ m =>
      rw [recsFrom_head sv bv (t + 4) (m + 1) (by omega)] at hy
      cases hy
      rfl

theorem recsFrom_getLast (sv bv : Int) :
    ∀ (t : Int) (n : Nat), ∀ x ∈ (recsFrom sv bv t n).getLast?,
      x.1 + 4 = t + 4 * (n : Int)
  | t, 0, x, hx => by cases hx
  | t, 1, x, hx => by
    simp only [recsFrom, List.getLast?_singleton, Option.mem_def,
      Option.some.injEq] at hx
    subst hx
    push_cast
    omega
  | t, n + 2, x, hx => by
    rw [recsFrom, recsFrom, List.getLast?_cons_cons, ← recsFrom] at hx
    have := recsFrom_getLast sv bv (t + 4) (n + 1) x hx
    push_cast at this ⊢
    omega

theorem emitGo_spec (sv bv : Int) :
    ∀ (n : Nat) (t : Int) (cs : List Chunk) (c : Chunk),
      emitGo sv bv n t cs c =
        ((List.foldl chunkPush (cs, c) (recsFrom sv bv t n)).1,
         (List.foldl chunkPush (cs, c) (recsFrom sv bv t n)).2,
         t + 4 * (n : Int))
  | 0, t, cs, c => by simp [emitGo, recsFrom]
  | n + 1, t, cs, c => by
    rw [emitGo, recsFrom, List.foldl_cons]
    have hpush : chunkPush (cs, c) (t, sv, bv) =
        if 4095 ≤ c.length then (cs ++ [c], [(t, sv, bv)])
        else (cs, c ++ [(t, sv, bv)]) := rfl
    by_cases hc : 4095 ≤ c.length
    · rw [if_pos hc, hpush, if_pos hc,
        emitGo_spec sv bv n (t + 4) (cs ++ [c]) [(t, sv, bv)]]
      push_cast
      ring_nf
    · rw [if_neg hc, hpush, if_neg hc,
        emitGo_spec sv bv n (t + 4) cs (c ++ [(t, sv, bv)])]
      push_cast
      ring_nf

theorem emitLoop_eq (t endT : Int) (s b : Option Int) (cs : List Chunk)
    (c : Chunk) :
    emitLoop t endT s b cs c = (emitRecs t endT s b).map (fun p =>
      ((List.foldl chunkPush (cs, c) p.1).1,
       (List.foldl chunkPush (cs, c) p.1).2, p.2)) := by
  unfold emitLoop emitRecs
  by_cases h0 : iterCount t endT = 0
  · simp [h0]
  · rw [if_neg h0, if_neg h0]
    cases s with
    | none => cases b <;> rfl
    | some sv =>
      cases b with
      | none => rfl
      | some bv =>
        dsimp only
        rw [emitGo_spec sv bv (iterCount t endT) t cs c]
        rfl

theorem walkIntervals_eq (sess : Int × Int) :
    ∀ (es : List Entry) (lastT s b : Option Int) (cs : List Chunk)
      (c : Chunk),
      walkIntervals sess es lastT s b cs c =
        (walkRecs sess es lastT s b).map (fun p =>
          ((List.foldl chunkPush (cs, c) p.1).1,
           (List.foldl chunkPush (cs, c) p.1).2, p.2.1, p.2.2)) := by
  intro es
  induction es with
  | nil => intro lastT s b cs c; rfl
  | cons e1 tail ih =>
    intro lastT s b cs c
    cases tail with
    | nil => rfl
    | cons e2 rest =>
      simp only [walkIntervals, walkRecs]
      by_cases hcond :
          lastT.getD e1.1 < sess.1 ∨ sess.2 < lastT.getD e1.1
      · rw [if_pos hcond, if_pos hcond]
        exact ih lastT (updVal e1.2.1 s) (updVal e1.2.2 b) cs c
      · rw [if_neg hcond, if_neg hcond, emitLoop_eq]
        cases hw : emitRecs (lastT.getD e1.1) e2.1 (updVal e1.2.1 s)
            (updVal e1.2.2 b) with
        | none => rfl
        | some p =>
          obtain ⟨rs, t2⟩ := p
          dsimp only [Option.map_some']
          rw [ih (some t2) (updVal e1.2.1 s) (updVal e1.2.2 b)
            (List.foldl chunkPush (cs, c) rs).1
            (List.foldl chunkPush (cs, c) rs).2]
          cases hw2 : walkRecs sess (e2 :: rest) (some t2) (updVal e1.2.1 s)
              (updVal e1.2.2 b) with
          | none => rfl
          | some q =>
            obtain ⟨rs2, sf, bf⟩ := q
            dsimp only [Option.map_some']
            rw [List.foldl_append]

/-! ### From pushed records to chunk partitions -/

theorem chunksOf_nil : chunksOf [] = [] := by
  rw [chunksOf]
  simp

theorem chunksOf_cons (l : List SRec) (h : l ≠ []) :
    chunksOf l = l.take 4095 :: chunksOf (l.drop 4095) := by
  rw [chunksOf]
  simp [h]

theorem foldl_chunkPush_small :
    ∀ (a : List SRec) (cs : List Chunk) (c : Chunk),
      c.length + a.length ≤ 4095 →
      List.foldl chunkPush (cs, c) a = (cs, c ++ a)
  | [], cs, c, _ => by simp
  | r :: rest, cs, c, h => by
    simp only [List.length_cons] at h
    rw [List.foldl_cons]
    have hc : ¬4095 ≤ c.length := by omega
    have hstep : chunkPush (cs, c) r = (cs, c ++ [r]) := by
      simp [chunkPush, hc]
    rw [hstep, foldl_chunkPush_small rest cs (c ++ [r]) (by simp; omega)]
    simp

theorem foldl_chunkPush_split (rs : List SRec) (cs : List Chunk)
    (h : 4095 < rs.length) :
    List.foldl chunkPush (cs, ([] : Chunk)) rs =
      List.foldl chunkPush (cs ++ [rs.take 4095], ([] : Chunk))
        (rs.drop 4095) := by
  conv_lhs => rw [← List.take_append_drop 4095 rs]
  rw [List.foldl_append]
  have htake : List.foldl chunkPush (cs, ([] : Chunk)) (rs.take 4095) =
      (cs, rs.take 4095) := by
    have := foldl_chunkPush_small (rs.take 4095) cs []
      (by simp [List.length_take])
    simpa using this
  rw [htake]
  have hdrop : rs.drop 4095 ≠ [] := by
    intro hd
    have := congrArg List.length hd
    simp [List.length_drop] at this
    omega
  obtain ⟨d, ds, hds⟩ := List.exists_cons_of_ne_nil hdrop
  rw [hds, List.foldl_cons, List.foldl_cons]
  have h1 : chunkPush (cs, rs.take 4095) d = (cs ++ [rs.take 4095], [d]) := by
    simp [chunkPush, List.length_take]
    omega
  have h2 : chunkPush (cs ++ [rs.take 4095], ([] : Chunk)) d =
      (cs ++ [rs.take 4095], [d]) := by
    simp [chunkPush]
  rw [h1, h2]

theorem flushEnd_foldl_aux :
    ∀ (n : Nat) (rs : List SRec), rs.length ≤ n → ∀ (cs : List Chunk),
      flushEnd (List.foldl chunkPush (cs, ([] : Chunk)) rs) =
        cs ++ chunksOf rs
  | n, rs, hn, cs => by
    by_cases hnil : rs = []
    · subst hnil
      simp [flushEnd, chunksOf_nil]
    by_cases hle : rs.length ≤ 4095
    · rw [foldl_chunkPush_small rs cs [] (by simpa using hle)]
      rw [chunksOf_cons rs hnil, List.take_of_length_le hle,
        List.drop_eq_nil_of_le hle, chunksOf_nil]
      simp [flushEnd, hnil]
    · have hlen : 4095 < rs.length := by omega
      have hdroplen : (rs.drop 4095).length ≤ n - 1 := by
        simp only [List.length_drop]
        omega
      have hn1 : n - 1 < n := by
        have : 0 < rs.length := List.length_pos.mpr hnil
        omega
      rw [foldl_chunkPush_split rs cs hlen,
        flushEnd_foldl_aux (n - 1) (rs.drop 4095) hdroplen
          (cs ++ [rs.take 4095]),
        chunksOf_cons rs hnil]
      simp
  termination_by n rs hn cs => n

theorem flushEnd_foldl (rs : List SRec) (cs : List Chunk) :
    flushEnd (List.foldl chunkPush (cs, ([] : Chunk)) rs) =
      cs ++ chunksOf rs :=
  flushEnd_foldl_aux rs.length rs le_rfl cs

theorem chunksOf_mem_bounds :
    ∀ (n : Nat) (l : List SRec), l.length ≤ n → ∀ c ∈ chunksOf l,
      1 ≤ c.length ∧ c.length ≤ 4095
  | n, l, hn, c, hc => by
    by_cases hnil : l = []
    · subst hnil
      rw [chunksOf_nil] at hc
      cases hc
    · rw [chunksOf_cons l hnil] at hc
      rcases List.mem_cons.mp hc with h | h
      · subst h
        have hp : 0 < l.length := List.length_pos.mpr hnil
        simp [List.length_take]
        omega
      · have hdl : (l.drop 4095).length ≤ n - 1 := by
          have hp : 0 < l.length := List.length_pos.mpr hnil
          simp only [List.length_drop]
          omega
        exact chunksOf_mem_bounds (n - 1) (l.drop 4095) hdl c h
  termination_by n _ _ _ _ => n
  decreasing_by
    have hp : 0 < l.length := List.length_pos.mpr hnil
    omega

theorem chunksOf_length :
    ∀ (n : Nat) (l : List SRec), l.length ≤ n →
      (chunksOf l).length = (l.length + 4094) / 4095
  | n, l, hn => by
    by_cases hnil : l = []
    · subst hnil
      rw [chunksOf_nil]
      rfl
    · rw [chunksOf_cons l hnil]
      have hp : 0 < l.length := List.length_pos.mpr hnil
      have hdl : (l.drop 4095).length ≤ n - 1 := by
        simp only [List.length_drop]
        omega
      rw [List.length_cons, chunksOf_length (n - 1) (l.drop 4095) hdl]
      simp only [List.length_drop]
      omega
  termination_by n _ _ => n
  decreasing_by
    have hp : 0 < l.length := List.length_pos.mpr hnil
    omega

theorem chunksOf_flatten :
    ∀ (n : Nat) (l : List SRec), l.length ≤ n → (chunksOf l).flatten = l
  | n, l, hn => by
    by_cases hnil : l = []
    · subst hnil
      rw [chunksOf_nil]
      rfl
    · rw [chunksOf_cons l hnil]
      have hp : 0 < l.length := List.length_pos.mpr hnil
      have hdl : (l.drop 4095).length ≤ n - 1 := by
        simp only [List.length_drop]
        omega
      rw [List.flatten_cons, chunksOf_flatten (n - 1) (l.drop 4095) hdl,
        List.take_append_drop]
  termination_by n _ _ => n
  decreasing_by
    have hp : 0 < l.length := List.length_pos.mpr hnil
    omega

theorem chunksOf_ne_nil (l : List SRec) (h : l ≠ []) : chunksOf l ≠ [] := by
  rw [chunksOf_cons l h]
  simp

theorem chunksOf_dropLast :
    ∀ (n : Nat) (l : List SRec), l.length ≤ n →
      ∀ c ∈ (chunksOf l).dropLast, c.length = 4095
  | n, l, hn, c, hc => by
    by_cases hnil : l = []
    · subst hnil
      rw [chunksOf_nil] at hc
      cases hc
    · rw [chunksOf_cons l hnil] at hc
      have hp : 0 < l.length := List.length_pos.mpr hnil
      by_cases hle : l.length ≤ 4095
      · have hde : l.drop 4095 = [] := List.drop_eq_nil_of_le hle
        rw [hde, chunksOf_nil] at hc
        cases hc
      · have hdne : l.drop 4095 ≠ [] := by
          intro hd
          have := congrArg List.length hd
          simp [List.length_drop] at this
          omega
        rw [List.dropLast_cons_of_ne_nil (chunksOf_ne_nil _ hdne)] at hc
        have hdl : (l.drop 4095).length ≤ n - 1 := by
          simp only [List.length_drop]
          omega
        rcases List.mem_cons.mp hc with h | h
        · subst h
          simp [List.length_take]
          omega
        · exact chunksOf_dropLast (n - 1) (l.drop 4095) hdl c h
  termination_by n _ _ _ _ => n
  decreasing_by
    have hp : 0 < l.length := List.length_pos.mpr hnil
    omega

theorem chunksOf_chain (R : SRec → SRec → Prop) :
    ∀ (n : Nat) (l : List SRec), l.length ≤ n → List.Chain' R l →
      ∀ c ∈ chunksOf l, List.Chain' R c
  | n, l, hn, hch, c, hc => by
    by_cases hnil : l = []
    · subst hnil
      rw [chunksOf_nil] at hc
      cases hc
    · rw [chunksOf_cons l hnil] at hc
      have hp : 0 < l.length := List.length_pos.mpr hnil
      rcases List.mem_cons.mp hc with h | h
      · subst h
        exact hch.take 4095
      · have hdl : (l.drop 4095).length ≤ n - 1 := by
          simp only [List.length_drop]
          omega
        exact chunksOf_chain R (n - 1) (l.drop 4095) hdl
          (hch.suffix (List.drop_suffix 4095 l)) c h
  termination_by n _ _ _ _ _ => n
  decreasing_by
    have hp : 0 < l.length := List.length_pos.mpr hnil
    omega

/-! ### The session loop and its flat form -/

theorem divideLoop_eq (sd : List Entry) :
    ∀ (sessions : List (Int × Int)) (s b : Option Int) (cs : List Chunk),
      divideLoop sd sessions s b cs [] =
        (divideRecs sd sessions s b).map (fun ls =>
          cs ++ (ls.map chunksOf).flatten)
  | [], s, b, cs => by simp [divideLoop, divideRecs]
  | sess :: rest, s, b, cs => by
    rw [divideLoop, divideRecs, walkIntervals_eq]
    cases hw : walkRecs sess sd none s b with
    | none => rfl
    | some p =>
      obtain ⟨rs, s2, b2⟩ := p
      dsimp only [Option.map_some']
      have hflush :
          (if ((List.foldl chunkPush (cs, ([] : Chunk)) rs).2).isEmpty then
            divideLoop sd rest s2 b2
              (List.foldl chunkPush (cs, ([] : Chunk)) rs).1
              (List.foldl chunkPush (cs, ([] : Chunk)) rs).2
          else
            divideLoop sd rest s2 b2
              ((List.foldl chunkPush (cs, ([] : Chunk)) rs).1 ++
                [(List.foldl chunkPush (cs, ([] : Chunk)) rs).2]) []) =
          divideLoop sd rest s2 b2 (cs ++ chunksOf rs) [] := by
        rw [← flushEnd_foldl rs cs]
        unfold flushEnd
        by_cases hemp :
            ((List.foldl chunkPush (cs, ([] : Chunk)) rs).2).isEmpty
        · rw [if_pos hemp, if_pos hemp]
          rw [List.isEmpty_iff] at hemp
          rw [hemp]
        · rw [if_neg hemp, if_neg hemp]
      rw [hflush, divideLoop_eq sd rest s2 b2 (cs ++ chunksOf rs)]
      cases divideRecs sd rest s2 b2 with
      | none => rfl
      | some ls =>
        dsimp only [Option.map_some']
        simp [List.append_assoc]

/-- The chunk generator equals: synthesize each retained session's flat
record list, then cut each session's records greedily into chunks of 4095
and concatenate (failing when a record is built before both running
values exist). -/
theorem divide_eq_divideRecs (sessions : List (Int × Int))
    (data : List Entry) :
    divide_data_to_viatom_chunks sessions data =
      (divideRecs (sortByKey data) sessions none none).map (fun ls =>
        (ls.map chunksOf).flatten) := by
  unfold divide_data_to_viatom_chunks
  rw [divideLoop_eq]
  cases divideRecs (sortByKey data) sessions none none with
  | none => rfl
  | some ls => simp

/-! ### Helper facts for the walk invariant -/

theorem iterCount_eq_zero (t e : Int) : iterCount t e = 0 ↔ e ≤ t := by
  unfold iterCount
  omega

theorem iterCount_reaches (t e : Int) (h : iterCount t e ≠ 0) :
    e ≤ t + 4 * (iterCount t e : Int) := by
  unfold iterCount at *
  omega

theorem iterCount_step_lt (t e : Int) (k : Nat) (hk : k < iterCount t e) :
    t + 4 * (k : Int) < e := by
  unfold iterCount at hk
  omega

theorem recsFrom_mem_k (sv bv : Int) :
    ∀ (t : Int) (n : Nat), ∀ r ∈ recsFrom sv bv t n,
      r.2.1 = sv ∧ r.2.2 = bv ∧ ∃ k : Nat, k < n ∧ r.1 = t + 4 * (k : Int)
  | t, n + 1, r, hr => by
    rw [recsFrom] at hr
    rcases List.mem_cons.mp hr with h | h
    · subst h
      exact ⟨rfl, rfl, 0, by omega, by push_cast; omega⟩
    · obtain ⟨h1, h2, k, hk, hr1⟩ := recsFrom_mem_k sv bv (t + 4) n r h
      refine ⟨h1, h2, k + 1, by omega, ?_⟩
      rw [hr1]
      push_cast
      ring

theorem chain_key_lt_of_mem :
    ∀ (x : Entry) (l : List Entry),
      List.Chain' (fun a b : Entry => a.1 < b.1) (x :: l) →
      ∀ y ∈ l, x.1 < y.1
  | _, [], _, y, hy => by cases hy
  | x, z :: l2, h, y, hy => by
    rw [List.chain'_cons] at h
    rcases List.mem_cons.mp hy with hz | hz
    · subst hz
      exact h.1
    · exact lt_trans h.1 (chain_key_lt_of_mem z l2 h.2 y hz)

theorem chain_key_le_of_mem (x : Entry) (l : List Entry)
    (h : List.Chain' (fun a b : Entry => a.1 < b.1) (x :: l)) :
    ∀ y ∈ x :: l, x.1 ≤ y.1 := by
  intro y hy
  rcases List.mem_cons.mp hy with hz | hz
  · subst hz
    exact le_refl _
  · exact le_of_lt (chain_key_lt_of_mem x l h y hz)

theorem foldOr_cons (sel : Entry → Option Int) (e : Entry) (l : List Entry)
    (v : Option Int) :
    foldOr sel (e :: l) v = foldOr sel l (updVal (sel e) v) := rfl

/-- Lifting of the per-record facts from the tail of the sorted table to
the whole table: once a record is known to lie at or beyond the second
entry, prepending the first entry extends the filtered prefix by exactly
that entry. -/
theorem walkLift (sess : Int × Int) (e1 e2 : Entry) (rest : List Entry)
    (hchain : List.Chain' (fun a b : Entry => a.1 < b.1) (e1 :: e2 :: rest))
    (s b : Option Int) (r : SRec)
    (hr1 : sess.1 ≤ r.1)
    (hpr : ∃ pr ∈ (e2 :: rest).zip rest, pr.1.1 ≤ r.1 ∧ r.1 < pr.2.1)
    (hv1 : some r.2.1 = foldOr entrySpo2
      ((e2 :: rest).filter (fun e => e.1 ≤ r.1)) (updVal e1.2.1 s))
    (hv2 : some r.2.2 = foldOr entryBpm
      ((e2 :: rest).filter (fun e => e.1 ≤ r.1)) (updVal e1.2.2 b)) :
    sess.1 ≤ r.1 ∧
    (∃ pr ∈ (e1 :: e2 :: rest).zip (e2 :: rest),
      pr.1.1 ≤ r.1 ∧ r.1 < pr.2.1) ∧
    some r.2.1 = foldOr entrySpo2
      ((e1 :: e2 :: rest).filter (fun e => e.1 ≤ r.1)) s ∧
    some r.2.2 = foldOr entryBpm
      ((e1 :: e2 :: rest).filter (fun e => e.1 ≤ r.1)) b := by
  obtain ⟨pr, hprm, hpr1, hpr2⟩ := hpr
  have hpe : pr.1 ∈ e2 :: rest := (List.of_mem_zip hprm).1
  have he2min : e2.1 ≤ pr.1.1 :=
    chain_key_le_of_mem e2 rest hchain.tail pr.1 hpe
  have he1e2 : e1.1 < e2.1 := (List.chain'_cons.mp hchain).1
  have he1r : e1.1 ≤ r.1 := by omega
  have hfe : (e1 :: e2 :: rest).filter (fun e => e.1 ≤ r.1) =
      e1 :: (e2 :: rest).filter (fun e => e.1 ≤ r.1) := by
    rw [List.filter_cons, if_pos (by simpa using he1r)]
  refine ⟨hr1, ⟨pr, ?_, hpr1, hpr2⟩, ?_, ?_⟩
  · rw [List.zip_cons_cons]
    exact List.mem_cons_of_mem _ hprm
  · rw [hfe, foldOr_cons]
    exact hv1
  · rw [hfe, foldOr_cons]
    exact hv2

/-- Invariant facts of one session walk over the sorted table, on its flat
record list: every record lies at or after the session start, falls in the
half-open span of an adjacent pair of table entries, and carries exactly
the running forward-fill values accumulated over the table prefix up to
its instant; consecutive records are 4 seconds apart, and when the walk is
resumed at a remembered position the first record lies exactly there. -/
theorem walkRecs_spec (sess : Int × Int) :
    ∀ (es : List Entry) (lastT s b : Option Int) (rs : List SRec)
      (sf bf : Option Int),
      walkRecs sess es lastT s b = some (rs, sf, bf) →
      List.Chain' (fun a b : Entry => a.1 < b.1) es →
      (∀ p : Int, lastT = some p → sess.1 ≤ p ∧
        ∀ f ∈ es.head?, f.1 ≤ p ∨ sess.2 < p) →
      (∀ r ∈ rs,
        sess.1 ≤ r.1 ∧
        (∃ pr ∈ es.zip es.tail, pr.1.1 ≤ r.1 ∧ r.1 < pr.2.1) ∧
        some r.2.1 = foldOr entrySpo2
          (es.filter (fun e => e.1 ≤ r.1)) s ∧
        some r.2.2 = foldOr entryBpm
          (es.filter (fun e => e.1 ≤ r.1)) b) ∧
      List.Chain' (fun a b : SRec => b.1 = a.1 + 4) rs ∧
      (∀ r0 ∈ rs.head?, ∀ p : Int, lastT = some p → r0.1 = p) := by
  intro es
  induction es with
  | nil =>
    intro lastT s b rs sf bf h hchain hinv
    have heq : some (([] : List SRec), s, b) = some (rs, sf, bf) := h
    simp only [Option.some.injEq, Prod.mk.injEq] at heq
    obtain ⟨rfl, -, -⟩ := heq
    exact ⟨fun r hr => absurd hr (List.not_mem_nil r), List.chain'_nil,
      fun r0 hr0 => absurd hr0 (Option.not_mem_none r0)⟩
  | cons e1 tail ih =>
    intro lastT s b rs sf bf h hchain hinv
    cases tail with
    | nil =>
      have heq : some (([] : List SRec), s, b) = some (rs, sf, bf) := h
      simp only [Option.some.injEq, Prod.mk.injEq] at heq
      obtain ⟨rfl, -, -⟩ := heq
      exact ⟨fun r hr => absurd hr (List.not_mem_nil r), List.chain'_nil,
        fun r0 hr0 => absurd hr0 (Option.not_mem_none r0)⟩
    | cons e2 rest =>
      simp only [walkRecs] at h
      by_cases hcond :
          lastT.getD e1.1 < sess.1 ∨ sess.2 < lastT.getD e1.1
      · rw [if_pos hcond] at h
        have hinv2 : ∀ p : Int, lastT = some p → sess.1 ≤ p ∧
            ∀ f ∈ (e2 :: rest).head?, f.1 ≤ p ∨ sess.2 < p := by
          intro p hp
          obtain ⟨hp1, _⟩ := hinv p hp
          refine ⟨hp1, ?_⟩
          intro f hf
          simp only [List.head?_cons, Option.mem_def, Option.some.injEq]
            at hf
          subst hf
          rw [hp] at hcond
          simp only [Option.getD_some] at hcond
          rcases hcond with hlt | hgt
          · exact absurd hlt (not_lt.mpr hp1)
          · exact Or.inr hgt
        obtain ⟨hrec, hch, hhead⟩ := ih lastT (updVal e1.2.1 s)
          (updVal e1.2.2 b) rs sf bf h hchain.tail hinv2
        refine ⟨?_, hch, hhead⟩
        intro r hr
        obtain ⟨hr1, hpr, hv1, hv2⟩ := hrec r hr
        exact walkLift sess e1 e2 rest hchain s b r hr1 hpr hv1 hv2
      · rw [if_neg hcond] at h
        push_neg at hcond
        obtain ⟨hge, hle⟩ := hcond
        split at h
        · cases h
        next rs1 t2 hem =>
          split at h
          · cases h
          next rs2 sf2 bf2 hw2 =>
            simp only [Option.some.injEq, Prod.mk.injEq] at h
            obtain ⟨rfl, rfl, rfl⟩ := h
            have he1t : e1.1 ≤ lastT.getD e1.1 := by
              cases lastT with
              | none => simp
              | some p =>
                obtain ⟨-, hp2⟩ := hinv p rfl
                have hx := hp2 e1 (by simp)
                simp only [Option.getD_some] at hle ⊢
                rcases hx with h1 | h1
                · exact h1
                · omega
            unfold emitRecs at hem
            by_cases hn0 : iterCount (lastT.getD e1.1) e2.1 = 0
            · rw [if_pos hn0] at hem
              simp only [Option.some.injEq, Prod.mk.injEq] at hem
              obtain ⟨hrs1, ht2⟩ := hem
              have he2le : e2.1 ≤ lastT.getD e1.1 :=
                (iterCount_eq_zero _ _).mp hn0
              have hinv2 : ∀ p : Int, some t2 = some p → sess.1 ≤ p ∧
                  ∀ f ∈ (e2 :: rest).head?, f.1 ≤ p ∨ sess.2 < p := by
                intro p hp
                simp only [Option.some.injEq] at hp
                subst hp
                rw [← ht2]
                refine ⟨hge, ?_⟩
                intro f hf
                simp only [List.head?_cons, Option.mem_def,
                  Option.some.injEq] at hf
                subst hf
                exact Or.inl he2le
              obtain ⟨hrec, hch, hhead⟩ := ih (some t2) (updVal e1.2.1 s)
                (updVal e1.2.2 b) rs2 sf2 bf2 hw2 hchain.tail hinv2
              subst hrs1
              refine ⟨?_, by simpa using hch, ?_⟩
              · intro r hr
                simp only [List.nil_append] at hr
                obtain ⟨hr1, hpr, hv1, hv2⟩ := hrec r hr
                exact walkLift sess e1 e2 rest hchain s b r hr1 hpr hv1 hv2
              · intro r0 hr0 p hp
                simp only [List.nil_append] at hr0
                have := hhead r0 hr0 t2 rfl
                rw [this, ← ht2, hp]
                simp
            · rw [if_neg hn0] at hem
              cases hs2 : updVal e1.2.1 s with
              | none => rw [hs2] at hem; cases hem
              | some sv =>
                cases hb2 : updVal e1.2.2 b with
                | none => rw [hs2, hb2] at hem; cases hem
                | some bv =>
                  rw [hs2, hb2] at hem
                  simp only [Option.some.injEq, Prod.mk.injEq] at hem
                  obtain ⟨hrs1, ht2⟩ := hem
                  have htlt : lastT.getD e1.1 < e2.1 := by
                    rcases lt_or_le (lastT.getD e1.1) e2.1 with h1 | h1
                    · exact h1
                    · exact absurd ((iterCount_eq_zero _ _).mpr h1) hn0
                  have hreach : e2.1 ≤ lastT.getD e1.1 +
                      4 * (iterCount (lastT.getD e1.1) e2.1 : Int) :=
                    iterCount_reaches _ _ hn0
                  have hinv2 : ∀ p : Int, some t2 = some p → sess.1 ≤ p ∧
                      ∀ f ∈ (e2 :: rest).head?, f.1 ≤ p ∨ sess.2 < p := by
                    intro p hp
                    simp only [Option.some.injEq] at hp
                    subst hp
                    rw [← ht2]
                    constructor
                    · have : (0 : Int) ≤
                          4 * (iterCount (lastT.getD e1.1) e2.1 : Int) := by
                        positivity
                      omega
                    · intro f hf
                      simp only [List.head?_cons, Option.mem_def,
                        Option.some.injEq] at hf
                      subst hf
                      exact Or.inl hreach
                  obtain ⟨hrec, hch, hhead⟩ := ih (some t2)
                    (updVal e1.2.1 s) (updVal e1.2.2 b) rs2 sf2 bf2 hw2
                    hchain.tail hinv2
                  refine ⟨?_, ?_, ?_⟩
                  · intro r hr
                    rcases List.mem_append.mp hr with hr1 | hr2
                    · rw [← hrs1] at hr1
                      obtain ⟨hv1, hv2, k, hk, hrk⟩ :=
                        recsFrom_mem_k sv bv _ _ r hr1
                      have hk4 : (0 : Int) ≤ 4 * (k : Int) := by positivity
                      have hrlo : lastT.getD e1.1 ≤ r.1 := by
                        rw [hrk]
                        omega
                      have hrhi : r.1 < e2.1 := by
                        rw [hrk]
                        exact iterCount_step_lt _ _ k hk
                      have hfilter : (e1 :: e2 :: rest).filter
                          (fun e => e.1 ≤ r.1) = [e1] := by
                        have hrest : ∀ e ∈ e2 :: rest, ¬e.1 ≤ r.1 := by
                          intro e he
                          have := chain_key_le_of_mem e2 rest
                            hchain.tail e he
                          omega
                        rw [List.filter_cons,
                          if_pos (by simpa using le_trans he1t hrlo),
                          List.filter_eq_nil_iff.mpr
                            (by intro a ha; simpa using hrest a ha)]
                      refine ⟨le_trans hge hrlo,
                        ⟨(e1, e2), by simp [List.zip_cons_cons],
                          le_trans he1t hrlo, hrhi⟩, ?_, ?_⟩
                      · rw [hfilter, foldOr_cons, hv1]
                        exact hs2.symm
                      · rw [hfilter, foldOr_cons, hv2]
                        exact hb2.symm
                    · obtain ⟨hr1, hpr, hv1, hv2⟩ := hrec r hr2
                      exact walkLift sess e1 e2 rest hchain s b r hr1 hpr
                        hv1 hv2
                  · rw [List.chain'_append]
                    refine ⟨by rw [← hrs1]; exact recsFrom_chain sv bv _ _,
                      hch, ?_⟩
                    intro x hx y hy
                    have hxl := recsFrom_getLast sv bv _ _ x
                      (by rw [hrs1]; exact hx)
                    have hyh := hhead y hy t2 rfl
                    rw [hyh, ← ht2]
                    omega
                  · intro r0 hr0 p hp
                    obtain ⟨m, hm⟩ := Nat.exists_eq_succ_of_ne_zero hn0
                    rw [← hrs1, hm, recsFrom, List.cons_append,
                      List.head?_cons] at hr0
                    simp only [Option.mem_def, Option.some.injEq] at hr0
                    subst hr0
                    rw [hp]
                    simp

theorem divideRecs_spec (sd : List Entry)
    (hchain : List.Chain' (fun a b : Entry => a.1 < b.1) sd) :
    ∀ (sessions : List (Int × Int)) (s b : Option Int)
      (ls : List (List SRec)),
      divideRecs sd sessions s b = some ls →
      ∀ rs ∈ ls,
        List.Chain' (fun a b : SRec => b.1 = a.1 + 4) rs ∧
        ∀ r ∈ rs,
          (∃ q ∈ sd.zip sd.tail, q.1.1 ≤ r.1 ∧ r.1 < q.2.1) ∧
          (∃ v, some r.2.1 = foldOr entrySpo2
            (sd.filter (fun e => e.1 ≤ r.1)) v) ∧
          (∃ w, some r.2.2 = foldOr entryBpm
            (sd.filter (fun e => e.1 ≤ r.1)) w)
  | [], s, b, ls, h, rs, hrs => by
    have heq : some ([] : List (List SRec)) = some ls := h
    simp only [Option.some.injEq] at heq
    subst heq
    cases hrs
  | sess :: rest, s, b, ls, h, rs, hrs => by
    unfold divideRecs at h
    split at h
    · cases h
    next rs0 s2 b2 hw =>
      split at h
      · cases h
      next ls2 hd2 =>
        simp only [Option.some.injEq] at h
        subst h
        rcases List.mem_cons.mp hrs with hr | hr
        · subst hr
          obtain ⟨hrec, hch, -⟩ := walkRecs_spec sess sd none s b rs s2 b2
            hw hchain (fun p hp => by cases hp)
          refine ⟨hch, ?_⟩
          intro r hrm
          obtain ⟨-, hq, hv1, hv2⟩ := hrec r hrm
          exact ⟨hq, ⟨s, hv1⟩, ⟨b, hv2⟩⟩
        · exact divideRecs_spec sd hchain rest s2 b2 ls2 hd2 rs hr

theorem foldOr_init_irrelevant (sel : Entry → Option Int) :
    ∀ (l : List Entry), (∃ e ∈ l, (sel e).isSome = true) →
      ∀ v w : Option Int, foldOr sel l v = foldOr sel l w
  | [], hsome, v, w => by
    obtain ⟨e, he, -⟩ := hsome
    cases he
  | e :: rest, hsome, v, w => by
    rw [foldOr_cons, foldOr_cons]
    cases hse : sel e with
    | some x => simp [updVal, hse]
    | none =>
      simp only [updVal, hse]
      obtain ⟨f, hf, hfs⟩ := hsome
      rcases List.mem_cons.mp hf with h1 | h1
      · subst h1
        rw [hse] at hfs
        cases hfs
      · exact foldOr_init_irrelevant sel rest ⟨f, h1, hfs⟩ v w

theorem foldOr_filter_le_eq_lt (sel : Entry → Option Int) (tau : Int) :
    ∀ (l : List Entry), (∀ e ∈ l, e.1 = tau → sel e = none) →
      ∀ v : Option Int,
        foldOr sel (l.filter (fun e => e.1 ≤ tau)) v =
          foldOr sel (l.filter (fun e => e.1 < tau)) v
  | [], _, v => rfl
  | e :: rest, habs, v => by
    have htail : ∀ f ∈ rest, f.1 = tau → sel f = none := by
      intro f hf
      exact habs f (List.mem_cons_of_mem e hf)
    rcases lt_trichotomy e.1 tau with hc | hc | hc
    · rw [List.filter_cons, if_pos (by simpa using le_of_lt hc),
        List.filter_cons, if_pos (by simpa using hc),
        foldOr_cons, foldOr_cons]
      exact foldOr_filter_le_eq_lt sel tau rest htail _
    · rw [List.filter_cons, if_pos (by simpa using le_of_eq hc),
        List.filter_cons, if_neg (by simpa using not_lt.mpr (le_of_eq hc.symm)),
        foldOr_cons]
      have : updVal (sel e) v = v := by
        rw [habs e (List.mem_cons_self e rest) hc]
        rfl
      rw [this]
      exact foldOr_filter_le_eq_lt sel tau rest htail v
    · rw [List.filter_cons, if_neg (by simpa using not_le.mpr hc),
        List.filter_cons, if_neg (by simpa using not_lt.mpr (le_of_lt hc))]
      exact foldOr_filter_le_eq_lt sel tau rest htail v

/-! ### Claims C2, C8, C9, C4 -/

theorem divide_chunk_bounds (sessions : List (Int × Int))
    (data : List Entry) (out : List Chunk)
    (h : divide_data_to_viatom_chunks sessions data = some out) :
    ∀ c ∈ out, 1 ≤ c.length ∧ c.length ≤ 4095 := by
  rw [divide_eq_divideRecs] at h
  intro c hc
  cases hd : divideRecs (sortByKey data) sessions none none with
  | none => rw [hd] at h; cases h
  | some ls =>
    rw [hd] at h
    simp only [Option.map_some', Option.some.injEq] at h
    subst h
    obtain ⟨l, hl, hcl⟩ := List.mem_flatten.mp hc
    obtain ⟨rs, hrs, rfl⟩ := List.mem_map.mp hl
    exact chunksOf_mem_bounds rs.length rs le_rfl c hcl

/-- C2: every chunk the generator produces holds between 1 and 4095
records, and each session's records are cut greedily: the chunks of a
session with n synthesized records number exactly (n + 4094) / 4095 (the
ceiling of n / 4095), all of them of exactly 4095 records except possibly
the last (so 20000 records give four chunks of 4095 and one of 3620). -/
theorem c2_chunk_size_bounds :
    ∀ (sessions : List (Int × Int)) (data : List Entry) (out : List Chunk),
      divide_data_to_viatom_chunks sessions data = some out →
      (∀ c ∈ out, 1 ≤ c.length ∧ c.length ≤ 4095) ∧
      ∀ ls, divideRecs (sortByKey data) sessions none none = some ls →
        out = (ls.map chunksOf).flatten ∧
        ∀ rs ∈ ls, 4095 < rs.length →
          (chunksOf rs).length = (rs.length + 4094) / 4095 ∧
          ∀ c ∈ (chunksOf rs).dropLast, c.length = 4095 := by
  intro sessions data out h
  refine ⟨divide_chunk_bounds sessions data out h, ?_⟩
  intro ls hls
  rw [divide_eq_divideRecs, hls] at h
  simp only [Option.map_some', Option.some.injEq] at h
  subst h
  refine ⟨rfl, ?_⟩
  intro rs hrs hlen
  exact ⟨chunksOf_length rs.length rs le_rfl,
    chunksOf_dropLast rs.length rs le_rfl⟩

/-- C2 witness: on the session (0, 0) over the table with entries at 0
and 8, the produced chunk's record count lies between 1 and 4095. -/
theorem c2_chunk_size_bounds_witness :
    1 ≤ (((divide_data_to_viatom_chunks [(0, 0)]
      [(0, some 62, some 70), (8, none, some 71)]).getD []).getD 0
      []).length ∧
    (((divide_data_to_viatom_chunks [(0, 0)]
      [(0, some 62, some 70), (8, none, some 71)]).getD []).getD 0
      []).length ≤ 4095 := by
  have h := (c2_chunk_size_bounds [(0, 0)]
    [(0, some 62, some 70), (8, none, some 71)]
    ((divide_data_to_viatom_chunks [(0, 0)]
      [(0, some 62, some 70), (8, none, some 71)]).getD []) rfl).1
  exact h _ (by decide)

/-- C8: the encoder raises its fatal internal-invariant RuntimeError
exactly when the chunk it is given has more than 4095 records, and no
chunk the chunk generator produces can ever trigger that branch — the
flush policy bounds every chunk by 4095 records. -/
theorem c8_too_long_guard :
    (∀ data : List SRec,
      (write_to_viatom_file data = .error .tooLong ↔ 4095 < data.length)) ∧
    ∀ (sessions : List (Int × Int)) (tbl : List Entry) (out : List Chunk),
      divide_data_to_viatom_chunks sessions tbl = some out →
      ∀ c ∈ out, write_to_viatom_file c ≠ .error .tooLong := by
  refine ⟨write_tooLong_iff, ?_⟩
  intro sessions tbl out h c hc hbad
  have hlen := (divide_chunk_bounds sessions tbl out h c hc).2
  have := (write_tooLong_iff c).mp hbad
  omega

/-- C8 witness: the concrete pipeline chunk of two records does not
trigger the over-length error. -/
theorem c8_too_long_guard_witness :
    write_to_viatom_file [(0, 62, 70), (4, 62, 70)] ≠ .error .tooLong := by
  have h := c8_too_long_guard.2 [(0, 0)]
    [(0, some 62, some 70), (8, none, some 71)]
    [[(0, 62, 70), (4, 62, 70)]] rfl
  exact h [(0, 62, 70), (4, 62, 70)] (by decide)

/-- C9 amended: for every successful run over a strictly ascending table,
every retained session's synthesized records are spaced exactly 4 seconds
apart session-wide (on the session's whole flat record list, across chunk
flushes, hence also within each chunk), and every record's instant lies in
the half-open span of an adjacent pair of table timestamps (it is emitted
strictly before the next real timestamp); but a session's chunks do NOT
cover exactly the session's time range — the counterexample theorem shows
a record strictly beyond the session end, because synthesis only stops at
the next real table timestamp. -/
theorem c9_spacing_amended :
    ∀ (sessions : List (Int × Int)) (data : List Entry) (out : List Chunk),
      List.Chain' (fun a b : Entry => a.1 < b.1) data →
      divide_data_to_viatom_chunks sessions data = some out →
      (∀ ls, divideRecs (sortByKey data) sessions none none = some ls →
        ∀ rs ∈ ls, List.Chain' (fun r q : SRec => q.1 = r.1 + 4) rs) ∧
      (∀ c ∈ out, List.Chain' (fun r q : SRec => q.1 = r.1 + 4) c) ∧
      (∀ c ∈ out, ∀ r ∈ c, ∃ pr ∈ data.zip data.tail,
        pr.1.1 ≤ r.1 ∧ r.1 < pr.2.1) := by
  intro sessions data out hsort h
  rw [divide_eq_divideRecs, sortByKey_eq_self_of_lt data hsort] at h
  refine ⟨?_, ?_⟩
  · intro ls hls
    rw [sortByKey_eq_self_of_lt data hsort] at hls
    intro rs hrs
    exact (divideRecs_spec data hsort sessions none none ls hls rs hrs).1
  cases hd : divideRecs data sessions none none with
  | none => rw [hd] at h; cases h
  | some ls =>
    rw [hd] at h
    simp only [Option.map_some', Option.some.injEq] at h
    subst h
    constructor
    · intro c hc
      obtain ⟨l, hl, hcl⟩ := List.mem_flatten.mp hc
      obtain ⟨rs, hrs, rfl⟩ := List.mem_map.mp hl
      have hch := (divideRecs_spec data hsort sessions none none ls hd
        rs hrs).1
      exact chunksOf_chain _ rs.length rs le_rfl hch c hcl
    · intro c hc r hr
      obtain ⟨l, hl, hcl⟩ := List.mem_flatten.mp hc
      obtain ⟨rs, hrs, rfl⟩ := List.mem_map.mp hl
      have hrm : r ∈ rs := by
        have hx : r ∈ (chunksOf rs).flatten :=
          List.mem_flatten.mpr ⟨c, hcl, hr⟩
        rwa [chunksOf_flatten rs.length rs le_rfl] at hx
      exact ((divideRecs_spec data hsort sessions none none ls hd
        rs hrs).2 r hrm).1

/-- C9 witness: the whole flat record list synthesized for the session
(0, 0) over the table with entries at 0 and 8 is 4-second spaced. -/
theorem c9_spacing_amended_witness :
    List.Chain' (fun r q : SRec => q.1 = r.1 + 4)
      [(0, 62, 70), (4, 62, 70)] := by
  have h := c9_spacing_amended [(0, 0)]
    [(0, some 62, some 70), (8, none, some 71)]
    [[(0, 62, 70), (4, 62, 70)]] (List.chain'_pair.mpr (by decide)) rfl
  exact h.1 [[(0, 62, 70), (4, 62, 70)]] rfl _ (by decide)

/-- C4: forward-fill correctness.  For every synthesized record whose
instant carries no real SpO2 (respectively heart-rate) sample in the
merged table, the record's value equals the last value of that metric
observed strictly before the instant, provided some sample of the metric
exists at or before the instant; and the running values are not reset
between sessions: in the concrete input below, the heart-rate value 85
observed at instant 4 — before the second session's start 304 — appears in
the second session's first synthesized record (304, 70, 85), the session
itself holding no heart-rate sample at or before 304. -/
theorem c4_forward_fill :
    (∀ (sessions : List (Int × Int)) (data : List Entry) (out : List Chunk),
      List.Chain' (fun a b : Entry => a.1 < b.1) data →
      divide_data_to_viatom_chunks sessions data = some out →
      ∀ c ∈ out, ∀ r ∈ c,
        ((∃ e ∈ data, e.1 ≤ r.1 ∧ (entrySpo2 e).isSome = true) →
          (∀ e ∈ data, e.1 = r.1 → entrySpo2 e = none) →
          some r.2.1 = lastValBefore entrySpo2 data r.1) ∧
        ((∃ e ∈ data, e.1 ≤ r.1 ∧ (entryBpm e).isSome = true) →
          (∀ e ∈ data, e.1 = r.1 → entryBpm e = none) →
          some r.2.2 = lastValBefore entryBpm data r.1)) ∧
    divide_data_to_viatom_chunks [(0, 0), (304, 304)]
      [(-4, none, some 80), (0, some 62, none), (4, none, some 85),
       (304, some 70, none), (308, none, some 81), (400, none, some 82)] =
      some [[(0, 62, 80)], [(304, 70, 85)]] := by
  constructor
  · intro sessions data out hsort h c hc r hr
    rw [divide_eq_divideRecs, sortByKey_eq_self_of_lt data hsort] at h
    cases hd : divideRecs data sessions none none with
    | none => rw [hd] at h; cases h
    | some ls =>
      rw [hd] at h
      simp only [Option.map_some', Option.some.injEq] at h
      subst h
      obtain ⟨l, hl, hcl⟩ := List.mem_flatten.mp hc
      obtain ⟨rs, hrs, rfl⟩ := List.mem_map.mp hl
      have hrm : r ∈ rs := by
        have hx : r ∈ (chunksOf rs).flatten :=
          List.mem_flatten.mpr ⟨c, hcl, hr⟩
        rwa [chunksOf_flatten rs.length rs le_rfl] at hx
      obtain ⟨-, ⟨v, hv1⟩, ⟨w, hv2⟩⟩ := (divideRecs_spec data hsort
        sessions none none ls hd rs hrs).2 r hrm
      constructor
      · intro hex habs
        obtain ⟨e, he, he1, hes⟩ := hex
        have hef : e ∈ data.filter (fun e => e.1 ≤ r.1) :=
          List.mem_filter.mpr ⟨he, by simpa using he1⟩
        rw [hv1, foldOr_init_irrelevant entrySpo2 _ ⟨e, hef, hes⟩ v none,
          lastValBefore]
        exact foldOr_filter_le_eq_lt entrySpo2 r.1 data habs none
      · intro hex habs
        obtain ⟨e, he, he1, hes⟩ := hex
        have hef : e ∈ data.filter (fun e => e.1 ≤ r.1) :=
          List.mem_filter.mpr ⟨he, by simpa using he1⟩
        rw [hv2, foldOr_init_irrelevant entryBpm _ ⟨e, hef, hes⟩ w none,
          lastValBefore]
        exact foldOr_filter_le_eq_lt entryBpm r.1 data habs none
  · rfl

/-- C4 witness: the record at instant 4 of the session (0, 60) carries
the SpO2 value 62 observed at instant 0, the last one strictly before 4. -/
theorem c4_forward_fill_witness :
    some (62 : Int) = lastValBefore entrySpo2
      [(0, some 62, some 70), (60, none, some 71)] 4 := by
  have h := c4_forward_fill.1 [(0, 60)]
    [(0, some 62, some 70), (60, none, some 71)]
    ((divide_data_to_viatom_chunks [(0, 60)]
      [(0, some 62, some 70), (60, none, some 71)]).getD [])
    (List.chain'_pair.mpr (by decide)) rfl
  have h2 := (h (((divide_data_to_viatom_chunks [(0, 60)]
      [(0, some 62, some 70), (60, none, some 71)]).getD []).getD 0 [])
    (by decide) (4, 62, 70) (by decide)).1
  exact h2 (by decide) (by decide)
